import Mathlib

/-!
Shallow embedding of `contracts/assemblyscript-poc/contract/src/cosmwasm.ts`.

The source is an AssemblyScript (v0.9) guest module: byte buffers live in
linear memory, `__alloc`/`__retain`/`__release` manage reference-counted heap
objects, and a `Region` record (offset, len) describes a buffer across the
host/guest boundary.  We model the heap as an association list of
address ↦ (object, reference count); allocation appends a fresh address,
`__retain` bumps the count, and `__release` decrements it, dropping the entry
when the count reaches zero.  Machine pointers and `usize` values become `Nat`
addresses, byte values become `Nat`, and host imports (`env.log`,
`env.canonicalize_address`) become explicit parameters over this state.
-/

namespace Cosmwasm

/-- A heap object: either a raw byte buffer (`ArrayBuffer` contents) or a
`Region` record with fields `offset` and `len`. -/
inductive HeapObj where
  | buffer (data : List Nat)
  | region (offset len : Nat)
deriving DecidableEq, Repr

/-- The guest heap: an association list mapping addresses to
(object, reference count), plus the next fresh address. -/
structure Mem where
  objs : List (Nat × HeapObj × Nat)
  next : Nat
deriving DecidableEq, Repr

/-- Look an address up in the heap (first matching entry). -/
def lookupList (a : Nat) : List (Nat × HeapObj × Nat) → Option (HeapObj × Nat)
  | [] => none
  | e :: rest => if e.1 = a then some e.2 else lookupList a rest

def Mem.lookupObj (st : Mem) (a : Nat) : Option (HeapObj × Nat) :=
  lookupList a st.objs

/-- `__retain`: increment the reference count of the object at `a`. -/
def retainList (a : Nat) : List (Nat × HeapObj × Nat) → List (Nat × HeapObj × Nat)
  | [] => []
  | e :: rest =>
      if e.1 = a then (e.1, e.2.1, e.2.2 + 1) :: rest else e :: retainList a rest

/-- `__release`: decrement the reference count of the object at `a`,
freeing it (removing the entry) when the count reaches zero. -/
def releaseList (a : Nat) : List (Nat × HeapObj × Nat) → List (Nat × HeapObj × Nat)
  | [] => []
  | e :: rest =>
      if e.1 = a then
        (if e.2.2 ≤ 1 then rest else (e.1, e.2.1, e.2.2 - 1) :: rest)
      else e :: releaseList a rest

def Mem.retain (st : Mem) (a : Nat) : Mem :=
  { st with objs := retainList a st.objs }

def Mem.release (st : Mem) (a : Nat) : Mem :=
  { st with objs := releaseList a st.objs }

/-- `__alloc`: reserve a fresh heap object (initial reference count 0) and
return its address. -/
def Mem.alloc (st : Mem) (o : HeapObj) : Nat × Mem :=
  (st.next, { objs := st.objs ++ [(st.next, o, 0)], next := st.next + 1 })

/-- Well-formed heap: every allocated address is below the fresh-address
counter (so fresh allocations never collide with live entries). -/
def Mem.wf (st : Mem) : Prop :=
  ∀ e ∈ st.objs, e.1 < st.next

instance (st : Mem) : Decidable st.wf :=
  inferInstanceAs (Decidable (∀ e ∈ st.objs, e.1 < st.next))

/-- The empty heap. -/
def mem0 : Mem := { objs := [], next := 0 }

/-- `allocate(size)`: reserve `size` bytes (uninitialized; modelled as zeros,
callers must not rely on the content), retain the buffer, build a `Region`
describing it, retain the `Region`, and return the `Region` pointer. -/
def allocate (st : Mem) (size : Nat) : Nat × Mem :=
  let (dataPtr, st1) := st.alloc (.buffer (List.replicate size 0))
  let st2 := st1.retain dataPtr
  let (regionPtr, st3) := st2.alloc (.region dataPtr size)
  (regionPtr, st3.retain regionPtr)

/-- `deallocate(regionPtr)`: read the `Region`'s `offset`, release the
`Region`, then release the buffer it refers to.  The source assumes
`regionPtr` addresses a live `Region`; other inputs are undefined behaviour,
modelled as leaving the heap unchanged. -/
def deallocate (st : Mem) (regionPtr : Nat) : Mem :=
  match st.lookupObj regionPtr with
  | some (.region offset _, _) => (st.release regionPtr).release offset
  | _ => st

/-- A `Uint8Array` value: a handle to a backing buffer plus a byte length.
(All arrays in this module view their buffer from offset 0.) -/
structure Uint8Array where
  dataPtr : Nat
  len : Nat
deriving DecidableEq, Repr

/-- Modelled from the spec: `getDataPtr` (from `utils.ts`, not in the
excerpt) returns the address of the start of the array's data. -/
def getDataPtr (data : Uint8Array) : Nat := data.dataPtr

/-- `readRegion(regionPtr)`: reinterpret the `Region`'s `offset` as a buffer
and return a view of its first `len` bytes (no copy, no ownership change).
The source assumes a live `Region`; other inputs are undefined behaviour,
modelled as an empty view. -/
def readRegion (st : Mem) (regionPtr : Nat) : Uint8Array :=
  match st.lookupObj regionPtr with
  | some (.region offset len, _) => { dataPtr := offset, len := len }
  | _ => { dataPtr := 0, len := 0 }

/-- The byte sequence an array denotes in a given heap: the first `len`
bytes of its backing buffer (the buffer may be longer than `len`). -/
def Mem.readBytes (st : Mem) (arr : Uint8Array) : List Nat :=
  match st.lookupObj arr.dataPtr with
  | some (.buffer data, _) => data.take arr.len
  | _ => []

/-- `releaseOwnership(data)`: build a `Region` describing the buffer and
retain both the raw data and the `Region`, handing responsibility for
freeing them to whoever receives the returned pointer. -/
def releaseOwnership (st : Mem) (data : Uint8Array) : Nat × Mem :=
  let dataPtr := getDataPtr data
  let (regionPtr, st1) := st.alloc (.region dataPtr data.len)
  (regionPtr, (st1.retain dataPtr).retain regionPtr)

/-- `keepOwnership(data)`: build a `Region` describing the buffer without
retaining anything; the guest keeps ownership of the data. -/
def keepOwnership (st : Mem) (data : Uint8Array) : Nat × Mem :=
  let dataPtr := getDataPtr data
  st.alloc (.region dataPtr data.len)

/-- `takeOwnership(regionPtr)`: read the bytes via `readRegion`, then
`deallocate` the `Region`, returning the view. -/
def takeOwnership (st : Mem) (regionPtr : Nat) : Uint8Array × Mem :=
  (readRegion st regionPtr, deallocate st regionPtr)

/-- Standard UTF-8 encoding of a single code point. -/
def utf8Bytes (c : Nat) : List Nat :=
  if c < 128 then [c]
  else if c < 2048 then [192 + c / 64, 128 + c % 64]
  else if c < 65536 then [224 + c / 4096, 128 + c / 64 % 64, 128 + c % 64]
  else [240 + c / 262144, 128 + c / 4096 % 64, 128 + c / 64 % 64, 128 + c % 64]

/-- UTF-8 bytes of a string. -/
def strUtf8 (s : String) : List Nat :=
  s.data.flatMap (fun ch => utf8Bytes ch.toNat)

/-- Modelled from the spec: a fresh managed `Uint8Array` holding the given
bytes (the array produced by `Encoding.toUtf8` in `utils.ts`, not in the
excerpt); the backing buffer is allocated and retained by the guest. -/
def newUint8Array (st : Mem) (bs : List Nat) : Uint8Array × Mem :=
  let (p, st1) := st.alloc (.buffer bs)
  ({ dataPtr := p, len := bs.length }, st1.retain p)

/-- Modelled from the spec: `Encoding.toUtf8` (from `utils.ts`, not in the
excerpt) UTF-8-encodes the text into a fresh `Uint8Array`. -/
def toUtf8 (st : Mem) (s : String) : Uint8Array × Mem :=
  newUint8Array st (strUtf8 s)

/-- A host implementation of `env.canonicalize_address`: given the input
`Region` pointer and the output `Region` pointer, it acts on the heap and
returns an `i32` return code. -/
def Host : Type := Nat → Nat → Mem → Int × Mem

/-- The guest world: the heap plus the byte sequences the host has received
through `env.log`. -/
structure World where
  mem : Mem
  logged : List (List Nat)
deriving DecidableEq, Repr

def world0 : World := { mem := mem0, logged := [] }

/-- `log(text)`: UTF-8-encode the text and pass it to `env.log` via
`keepOwnership`.  Modelled from the spec: `env.log` reads the `Region` it is
given and records the bytes, taking no ownership. -/
def log (w : World) (text : String) : World :=
  let (data, st1) := toUtf8 w.mem text
  let (regionPtr, st2) := keepOwnership st1 data
  { mem := st2, logged := w.logged ++ [st2.readBytes (readRegion st2 regionPtr)] }

/-- Outcome of running a guest function: a normal return value, or a wasm
trap (`unreachable()`), which never returns control to the caller. -/
inductive GuestResult (α : Type) where
  | normal (val : α)
  | trap
deriving DecidableEq, Repr

/-- AssemblyScript v0.9 `x || y` on a nullable reference substitutes `y`
exactly when `x` is `null`: truthiness of a reference is a null check, so the
empty string is truthy and is kept. -/
def orUnset : Option String → String
  | some s => s
  | none => "unset"

/-- The diagnostic string `logAndCrash` builds.  Transcribed from the source
concatenation; note the source writes no closing apostrophe after the
message. -/
def logAndCrashMessage (message fileName : Option String) (lineNumber columnNumber : Nat) :
    String :=
  "Aborted with message \x27" ++ orUnset message ++
    " (in \x27" ++ orUnset fileName ++
    "\x27, line " ++ toString lineNumber ++
    ", column " ++ toString columnNumber ++ ")"

/-- `logAndCrash`: format the diagnostic, `log` it, then execute
`unreachable()`, trapping the module. -/
def logAndCrash (w : World) (message fileName : Option String)
    (lineNumber columnNumber : Nat) : GuestResult Unit × World :=
  let w1 := log w (logAndCrashMessage message fileName lineNumber columnNumber)
  (GuestResult.trap, w1)

/-- The message of the `Error` thrown when `env.canonicalize_address`
returns a negative code; it embeds the numeric return code. -/
def canonErrMsg (returnCode : Int) : String :=
  "Call to env.canonicalize_address failed with return code " ++ toString returnCode

/-- The straight-line prefix of `canonicalize` up to (not including) the host
call: UTF-8-encode the input, `allocate` the 50-byte output `Region`, wrap
the input via `keepOwnership`.  Returns (input `Region` pointer, output
`Region` pointer, heap). -/
def canonSetup (st : Mem) (human : String) : Nat × Nat × Mem :=
  let (humanEncoded, st1) := toUtf8 st human
  let (resultPtr, st2) := allocate st1 50
  let (inputPtr, st3) := keepOwnership st2 humanEncoded
  (inputPtr, resultPtr, st3)

/-- The input `Region` pointer passed to `env.canonicalize_address`. -/
def canonIn (st : Mem) (human : String) : Nat := (canonSetup st human).1

/-- The output `Region` pointer passed to `env.canonicalize_address`. -/
def canonOut (st : Mem) (human : String) : Nat := (canonSetup st human).2.1

/-- The heap at the moment `env.canonicalize_address` is invoked. -/
def canonMemPre (st : Mem) (human : String) : Mem := (canonSetup st human).2.2

/-- The return code produced by the host call inside `canonicalize`. -/
def canonCode (h : Host) (st : Mem) (human : String) : Int :=
  (h (canonIn st human) (canonOut st human) (canonMemPre st human)).1

/-- The heap right after the host call inside `canonicalize`. -/
def canonMemPost (h : Host) (st : Mem) (human : String) : Mem :=
  (h (canonIn st human) (canonOut st human) (canonMemPre st human)).2

/-- `canonicalize(human)`: set up the `Region`s, call the host; a negative
return code throws an `Error` embedding the code, otherwise read the output
`Region`, `deallocate` it and return the bytes. -/
def canonicalize (h : Host) (st : Mem) (human : String) :
    Except String (List Nat) × Mem :=
  let returnCode := canonCode h st human
  let st4 := canonMemPost h st human
  if returnCode < 0 then
    (Except.error (canonErrMsg returnCode), st4)
  else
    let canonical := st4.readBytes (readRegion st4 (canonOut st human))
    (Except.ok canonical, deallocate st4 (canonOut st human))

namespace Base64

/-- The standard base64 alphabet. -/
def chars : List Char :=
  "ABCDEFGHIJKLMNOPQRSTUVWXYZabcdefghijklmnopqrstuvwxyz0123456789+/".data

def char (n : Nat) : Char := chars.getD n 'A'

/-- Encode byte triples into base64 quadruples, padding the final partial
group with = signs. -/
def chunks : List Nat → List Char
  | [] => []
  | [b0] => [char (b0 / 4), char (b0 % 4 * 16), '=', '=']
  | [b0, b1] => [char (b0 / 4), char (b0 % 4 * 16 + b1 / 16), char (b1 % 16 * 4), '=']
  | b0 :: b1 :: b2 :: rest =>
      char (b0 / 4) :: char (b0 % 4 * 16 + b1 / 16) ::
        char (b1 % 16 * 4 + b2 / 64) :: char (b2 % 64) :: chunks rest

/-- Modelled from the spec: `Base64.encode` (from `encoding/base64.ts`, not
in the excerpt) is the standard padded base64 encoding. -/
def encode (bs : List Nat) : String := String.mk (chunks bs)

end Base64

/-- `wrapOk(data)`: the UTF-8 JSON document of the exact shape
`ok ↦ base64 of data` with no whitespace.  Modelled from the spec: the
external `JSONEncoder` (assemblyscript-json) serializes the single-key
object with minimal punctuation and `Base64.encode` supplies the value. -/
def wrapOk (data : List Nat) : List Nat :=
  strUtf8 ("\x7b\"ok\":\"" ++ Base64.encode data ++ "\"\x7d")

/-- Erase buffer contents, keeping address, object kind, object length and
reference count: what a host call may not change about the heap other than
writing bytes into buffers. -/
def HeapObj.shape : HeapObj → HeapObj
  | .buffer data => .buffer (List.replicate data.length 0)
  | .region offset len => .region offset len

def entryShape (e : Nat × HeapObj × Nat) : Nat × HeapObj × Nat :=
  (e.1, e.2.1.shape, e.2.2)

/-- The allocation layout of a heap: all entries with buffer contents
erased. -/
def Mem.layout (st : Mem) : List (Nat × HeapObj × Nat) :=
  st.objs.map entryShape

/- Concrete fixtures used to witness the theorems below. -/

def addr0 : String := "addr"

/-- A host stub that fails every call with return code -1, leaving the heap
unchanged. -/
def hostNeg : Host := fun _ _ st => (-1, st)

/-- The heap `canonSetup mem0 addr0` produces after a host has written the
two bytes 7, 8 into the 50-byte output buffer and shrunk the output
`Region` length to 2. -/
def memCanonDone : Mem :=
  { objs := [(0, .buffer (strUtf8 addr0), 1),
             (1, .buffer ([7, 8] ++ List.replicate 48 0), 1),
             (2, .region 1 2, 1),
             (3, .region 0 4, 0)],
    next := 4 }

/-- A host stub that succeeds with return code 0 after writing two bytes. -/
def hostOk : Host := fun _ _ _ => (0, memCanonDone)

/-- A heap holding one live three-byte buffer. -/
def mem1 : Mem := { objs := [(0, .buffer [1, 2, 3], 1)], next := 1 }

def arr1 : Uint8Array := { dataPtr := 0, len := 3 }

/-! ### Helper lemmas about the heap association list -/

theorem lookupList_eq_none {a : Nat} {l : List (Nat × HeapObj × Nat)}
    (h : ∀ e ∈ l, e.1 ≠ a) : lookupList a l = none := by
  induction l with
  | nil => rfl
  | cons e t ih =>
    simp only [lookupList]
    rw [if_neg (h e (by simp))]
    exact ih fun x hx => h x (by simp [hx])

theorem lookupList_append_right {a : Nat} {l1 l2 : List (Nat × HeapObj × Nat)}
    (h : ∀ e ∈ l1, e.1 ≠ a) : lookupList a (l1 ++ l2) = lookupList a l2 := by
  induction l1 with
  | nil => rfl
  | cons e t ih =>
    simp only [List.cons_append, lookupList]
    rw [if_neg (h e (by simp))]
    exact ih fun x hx => h x (by simp [hx])

theorem lookupList_append_left {a : Nat} {l1 l2 : List (Nat × HeapObj × Nat)}
    {v : HeapObj × Nat} (h : lookupList a l1 = some v) :
    lookupList a (l1 ++ l2) = some v := by
  induction l1 with
  | nil => simp [lookupList] at h
  | cons e t ih =>
    simp only [List.cons_append, lookupList] at h ⊢
    by_cases he : e.1 = a
    · rw [if_pos he] at h ⊢; exact h
    · rw [if_neg he] at h ⊢; exact ih h

theorem lookupList_snoc {a : Nat} {l : List (Nat × HeapObj × Nat)} {o : HeapObj} {rc : Nat}
    (h : ∀ e ∈ l, e.1 ≠ a) : lookupList a (l ++ [(a, o, rc)]) = some (o, rc) := by
  rw [lookupList_append_right h]; simp [lookupList]

theorem lookupList_lt {a n : Nat} {l : List (Nat × HeapObj × Nat)} {v : HeapObj × Nat}
    (h : lookupList a l = some v) (hb : ∀ e ∈ l, e.1 < n) : a < n := by
  induction l with
  | nil => simp [lookupList] at h
  | cons e t ih =>
    simp only [lookupList] at h
    by_cases he : e.1 = a
    · exact he ▸ hb e (by simp)
    · rw [if_neg he] at h
      exact ih h fun x hx => hb x (by simp [hx])

theorem retainList_append_right {a : Nat} {l1 l2 : List (Nat × HeapObj × Nat)}
    (h : ∀ e ∈ l1, e.1 ≠ a) : retainList a (l1 ++ l2) = l1 ++ retainList a l2 := by
  induction l1 with
  | nil => rfl
  | cons e t ih =>
    simp only [List.cons_append, retainList, List.append_eq]
    rw [if_neg (h e (by simp)), ih fun x hx => h x (by simp [hx])]

theorem retainList_append_left {a : Nat} {l1 l2 : List (Nat × HeapObj × Nat)}
    {v : HeapObj × Nat} (h : lookupList a l1 = some v) :
    retainList a (l1 ++ l2) = retainList a l1 ++ l2 := by
  induction l1 with
  | nil => simp [lookupList] at h
  | cons e t ih =>
    simp only [lookupList] at h
    simp only [List.cons_append, retainList, List.append_eq]
    by_cases he : e.1 = a
    · rw [if_pos he, if_pos he]; rfl
    · rw [if_neg he] at h
      rw [if_neg he, if_neg he, ih h]
      rfl

theorem retainList_snoc {a : Nat} {l : List (Nat × HeapObj × Nat)} {o : HeapObj} {rc : Nat}
    (h : ∀ e ∈ l, e.1 ≠ a) :
    retainList a (l ++ [(a, o, rc)]) = l ++ [(a, o, rc + 1)] := by
  rw [retainList_append_right h]; simp [retainList]

theorem releaseList_append_right {a : Nat} {l1 l2 : List (Nat × HeapObj × Nat)}
    (h : ∀ e ∈ l1, e.1 ≠ a) : releaseList a (l1 ++ l2) = l1 ++ releaseList a l2 := by
  induction l1 with
  | nil => rfl
  | cons e t ih =>
    simp only [List.cons_append, releaseList, List.append_eq]
    rw [if_neg (h e (by simp)), ih fun x hx => h x (by simp [hx])]

theorem releaseList_snoc_one {a : Nat} {l : List (Nat × HeapObj × Nat)} {o : HeapObj}
    (h : ∀ e ∈ l, e.1 ≠ a) : releaseList a (l ++ [(a, o, 1)]) = l := by
  rw [releaseList_append_right h]; simp [releaseList]

theorem releaseList_retainList {a : Nat} {l : List (Nat × HeapObj × Nat)}
    {v : HeapObj × Nat} (h : lookupList a l = some v) (hrc : 1 ≤ v.2) :
    releaseList a (retainList a l) = l := by
  induction l with
  | nil => simp [lookupList] at h
  | cons e t ih =>
    simp only [lookupList] at h
    by_cases he : e.1 = a
    · rw [if_pos he] at h
      have hv : e.2 = v := by injection h
      have h0 : e.2.2 = v.2 := by rw [hv]
      have h1 : ¬(e.2.2 + 1 ≤ 1) := by omega
      simp only [retainList, releaseList, he, if_pos, if_true, h1, if_false, Nat.add_sub_cancel]
      rw [← he]
    · rw [if_neg he] at h
      simp only [retainList, releaseList, if_neg he]
      rw [ih h]

theorem lookupList_retainList_other {b a : Nat} {l : List (Nat × HeapObj × Nat)}
    (hne : b ≠ a) : lookupList b (retainList a l) = lookupList b l := by
  induction l with
  | nil => rfl
  | cons e t ih =>
    by_cases he : e.1 = a
    · have hb : ¬e.1 = b := by rw [he]; exact fun hh => hne hh.symm
      simp only [retainList, if_pos he, lookupList, if_neg hb]
    · simp only [retainList, if_neg he, lookupList]
      by_cases hb : e.1 = b
      · rw [if_pos hb, if_pos hb]
      · rw [if_neg hb, if_neg hb, ih]

theorem lookupList_releaseList_other {b a : Nat} {l : List (Nat × HeapObj × Nat)}
    (hne : b ≠ a) : lookupList b (releaseList a l) = lookupList b l := by
  induction l with
  | nil => rfl
  | cons e t ih =>
    by_cases he : e.1 = a
    · have hb : ¬e.1 = b := by rw [he]; exact fun hh => hne hh.symm
      simp only [releaseList, if_pos he, lookupList, if_neg hb]
      by_cases h1 : e.2.2 ≤ 1
      · rw [if_pos h1]
      · rw [if_neg h1]
        simp only [lookupList, if_neg hb]
    · simp only [releaseList, if_neg he, lookupList]
      by_cases hb : e.1 = b
      · rw [if_pos hb, if_pos hb]
      · rw [if_neg hb, if_neg hb, ih]

theorem lookupList_releaseList_self {a : Nat} {l : List (Nat × HeapObj × Nat)}
    {o : HeapObj} {rc : Nat} (hnodup : (l.map fun e => e.1).Nodup)
    (h : lookupList a l = some (o, rc)) (hrc : rc ≤ 1) :
    lookupList a (releaseList a l) = none := by
  induction l with
  | nil => simp [lookupList] at h
  | cons e t ih =>
    simp only [List.map_cons, List.nodup_cons, List.mem_map] at hnodup
    simp only [lookupList] at h
    by_cases he : e.1 = a
    · rw [if_pos he] at h
      have hrest : ∀ x ∈ t, x.1 ≠ a := by
        intro x hx hxa
        exact hnodup.1 ⟨x, hx, by rw [hxa, he]⟩
      have h2 : e.2.2 ≤ 1 := by
        have : e.2 = (o, rc) := by injection h
        rw [this]; exact hrc
      simp only [releaseList, if_pos he, if_pos h2]
      exact lookupList_eq_none hrest
    · rw [if_neg he] at h
      simp only [releaseList, if_neg he, lookupList, if_neg he]
      exact ih hnodup.2 h

theorem retainList_bound {n a : Nat} {l : List (Nat × HeapObj × Nat)}
    (h : ∀ e ∈ l, e.1 < n) : ∀ e ∈ retainList a l, e.1 < n := by
  induction l with
  | nil => simp [retainList]
  | cons e t ih =>
    by_cases he : e.1 = a
    · simp only [retainList, if_pos he]
      intro x hx
      rcases List.mem_cons.mp hx with hx | hx
      · rw [hx]; exact h e (by simp)
      · exact h x (by simp [hx])
    · simp only [retainList, if_neg he]
      intro x hx
      rcases List.mem_cons.mp hx with hx | hx
      · rw [hx]; exact h e (by simp)
      · exact ih (fun y hy => h y (by simp [hy])) x hx

theorem releaseList_bound {n a : Nat} {l : List (Nat × HeapObj × Nat)}
    (h : ∀ e ∈ l, e.1 < n) : ∀ e ∈ releaseList a l, e.1 < n := by
  induction l with
  | nil => simp [releaseList]
  | cons e t ih =>
    by_cases he : e.1 = a
    · simp only [releaseList, if_pos he]
      by_cases h1 : e.2.2 ≤ 1
      · rw [if_pos h1]
        exact fun x hx => h x (by simp [hx])
      · rw [if_neg h1]
        intro x hx
        rcases List.mem_cons.mp hx with hx | hx
        · rw [hx]; exact h e (by simp)
        · exact h x (by simp [hx])
    · simp only [releaseList, if_neg he]
      intro x hx
      rcases List.mem_cons.mp hx with hx | hx
      · rw [hx]; exact h e (by simp)
      · exact ih (fun y hy => h y (by simp [hy])) x hx

theorem boundNe {l : List (Nat × HeapObj × Nat)} {n m : Nat}
    (h : ∀ e ∈ l, e.1 < n) (hnm : n ≤ m) : ∀ e ∈ l, e.1 ≠ m :=
  fun e he => Nat.ne_of_lt (Nat.lt_of_lt_of_le (h e he) hnm)

theorem boundSnoc {l : List (Nat × HeapObj × Nat)} {n : Nat}
    (h : ∀ e ∈ l, e.1 < n) (o : HeapObj) (rc : Nat) :
    ∀ e ∈ l ++ [(n, o, rc)], e.1 < n + 1 := by
  intro e he
  rcases List.mem_append.mp he with he | he
  · exact Nat.lt_succ_of_lt (h e he)
  · rw [List.mem_singleton] at he
    rw [he]
    exact Nat.lt_succ_self n

/-! ### Computations of the model operations on a well-formed heap -/

theorem allocate_eq (st : Mem) (size : Nat) (hwf : st.wf) :
    allocate st size =
      (st.next + 1,
       { objs := st.objs ++ [(st.next, .buffer (List.replicate size 0), 1),
                             (st.next + 1, .region st.next size, 1)],
         next := st.next + 2 }) := by
  have h0 := boundNe hwf (Nat.le_refl st.next)
  have h1 := boundNe (boundSnoc hwf (.buffer (List.replicate size 0)) 1)
    (Nat.le_refl (st.next + 1))
  simp only [allocate, Mem.alloc, Mem.retain]
  rw [retainList_snoc h0, retainList_snoc h1]
  simp [List.append_assoc]

theorem canonIn_eq (st : Mem) (human : String) : canonIn st human = st.next + 3 := rfl

theorem canonOut_eq (st : Mem) (human : String) : canonOut st human = st.next + 2 := rfl

theorem canonMemPre_eq (st : Mem) (human : String) (hwf : st.wf) :
    canonMemPre st human =
      { objs := st.objs ++
          [(st.next, .buffer (strUtf8 human), 1),
           (st.next + 1, .buffer (List.replicate 50 0), 1),
           (st.next + 2, .region (st.next + 1) 50, 1),
           (st.next + 3, .region st.next (strUtf8 human).length, 0)],
        next := st.next + 4 } := by
  have h0 := boundNe hwf (Nat.le_refl st.next)
  have b1 := boundSnoc hwf (.buffer (strUtf8 human)) 1
  have h1 := boundNe b1 (Nat.le_refl (st.next + 1))
  have b2 := boundSnoc b1 (.buffer (List.replicate 50 0)) 1
  have h2 := boundNe b2 (Nat.le_refl (st.next + 2))
  simp only [canonMemPre, canonSetup, toUtf8, newUint8Array, Mem.alloc, Mem.retain,
    allocate, keepOwnership, getDataPtr]
  rw [retainList_snoc h0, retainList_snoc h1, retainList_snoc h2]
  simp [List.append_assoc]

theorem canonMemPre_lookup_out (st : Mem) (human : String) (hwf : st.wf) :
    (canonMemPre st human).lookupObj (canonOut st human) =
      some (.region (st.next + 1) 50, 1) := by
  rw [canonOut_eq]
  have hpre := canonMemPre_eq st human hwf
  have hb : ∀ e ∈ st.objs, e.1 ≠ st.next + 2 := boundNe hwf (by omega)
  have c0 : ¬(st.next = st.next + 2) := by omega
  have c1 : ¬(st.next + 1 = st.next + 2) := by omega
  simp only [Mem.lookupObj, hpre]
  rw [lookupList_append_right hb]
  simp only [lookupList]
  rw [if_neg c0, if_neg c1]
  simp

theorem canonMemPre_lookup_buf (st : Mem) (human : String) (hwf : st.wf) :
    (canonMemPre st human).lookupObj (st.next + 1) =
      some (.buffer (List.replicate 50 0), 1) := by
  have hpre := canonMemPre_eq st human hwf
  have hb : ∀ e ∈ st.objs, e.1 ≠ st.next + 1 := boundNe hwf (by omega)
  have c0 : ¬(st.next = st.next + 1) := by omega
  simp only [Mem.lookupObj, hpre]
  rw [lookupList_append_right hb]
  simp only [lookupList]
  rw [if_neg c0]
  simp

/-! ### Layouts and shapes -/

theorem layout_lookupList {l l' : List (Nat × HeapObj × Nat)}
    (h : l'.map entryShape = l.map entryShape) (a : Nat) :
    (lookupList a l').map (fun p => (p.1.shape, p.2)) =
      (lookupList a l).map (fun p => (p.1.shape, p.2)) := by
  induction l generalizing l' with
  | nil =>
    rw [List.map_eq_nil_iff.mp h]
  | cons e t ih =>
    cases l' with
    | nil => simp at h
    | cons x t' =>
      simp only [List.map_cons, List.cons.injEq] at h
      obtain ⟨h1, h2⟩ := h
      simp only [entryShape, Prod.mk.injEq] at h1
      obtain ⟨ha, hs, hrc⟩ := h1
      simp only [lookupList]
      by_cases hea : e.1 = a
      · rw [if_pos hea, if_pos (ha.trans hea)]
        simp [hs, hrc]
      · rw [if_neg hea, if_neg (fun hh => hea (ha ▸ hh))]
        exact ih h2

theorem shape_region {o : HeapObj} {x y : Nat} (h : o.shape = .region x y) :
    o = .region x y := by
  cases o with
  | buffer data => simp [HeapObj.shape] at h
  | region a b => simpa [HeapObj.shape] using h

theorem shape_buffer {o : HeapObj} {bs : List Nat} (h : o.shape = .buffer bs) :
    ∃ data, o = .buffer data ∧ data.length = bs.length := by
  cases o with
  | buffer data =>
    refine ⟨data, rfl, ?_⟩
    simp only [HeapObj.shape, HeapObj.buffer.injEq] at h
    rw [← h]
    simp
  | region a b => simp [HeapObj.shape] at h

theorem releaseList_map_sublist (a : Nat) (l : List (Nat × HeapObj × Nat)) :
    ((releaseList a l).map fun e => e.1).Sublist (l.map fun e => e.1) := by
  induction l with
  | nil => simp [releaseList]
  | cons e t ih =>
    by_cases he : e.1 = a
    · simp only [releaseList, if_pos he]
      by_cases h1 : e.2.2 ≤ 1
      · rw [if_pos h1]
        simp only [List.map_cons]
        exact List.sublist_cons_self _ _
      · rw [if_neg h1]
        simp only [List.map_cons]
        exact List.Sublist.refl _
    · simp only [releaseList, if_neg he, List.map_cons]
      exact List.Sublist.cons₂ _ ih

theorem releaseList_nodup {a : Nat} {l : List (Nat × HeapObj × Nat)}
    (h : (l.map fun e => e.1).Nodup) : ((releaseList a l).map fun e => e.1).Nodup :=
  List.Nodup.sublist (releaseList_map_sublist a l) h

theorem deallocate_eq_of_lookup {st : Mem} {p off len rc : Nat}
    (h : st.lookupObj p = some (.region off len, rc)) :
    deallocate st p = (st.release p).release off := by
  unfold deallocate
  rw [h]

/-! ### Claims -/

/-- C1: evaluating the code at the claimed input.  The diagnostic string
built by `logAndCrash` for (boom, file.ts, 10, 3) has no closing apostrophe
after the message, so it differs from the string the claim expects; the
null-message call does substitute the literal text unset. -/
theorem logAndCrash_boom_eval :
    logAndCrashMessage (some ("boom")) (some ("file.ts")) 10 3 =
        "Aborted with message \x27boom (in \x27file.ts\x27, line 10, column 3)" ∧
    logAndCrashMessage (some ("boom")) (some ("file.ts")) 10 3 ≠
        "Aborted with message \x27boom\x27 (in \x27file.ts\x27, line 10, column 3)" ∧
    logAndCrashMessage none (some ("file.ts")) 10 3 =
        "Aborted with message \x27unset (in \x27file.ts\x27, line 10, column 3)" :=
  ⟨by decide, by decide, by decide⟩

/-- C9: for every world and every combination of arguments, `logAndCrash`
ends in `unreachable()`: its outcome is a trap, never a normal return, so no
execution step following the call is reached. -/
theorem logAndCrash_never_returns (w : World) (message fileName : Option String)
    (lineNumber columnNumber : Nat) :
    (logAndCrash w message fileName lineNumber columnNumber).1 = GuestResult.trap := rfl

/-- C10 counterexample: with message equal to the empty string the logged
diagnostic embeds the empty string itself and differs from the null-message
diagnostic, so the empty string is not treated like an absent field. -/
theorem logAndCrash_empty_not_like_null :
    logAndCrashMessage (some ("")) (some ("file.ts")) 10 3 =
        "Aborted with message \x27 (in \x27file.ts\x27, line 10, column 3)" ∧
    logAndCrashMessage (some ("")) (some ("file.ts")) 10 3 ≠
        logAndCrashMessage none (some ("file.ts")) 10 3 :=
  ⟨by decide, by decide⟩

/-- C10 amended: only null is replaced by the literal text unset; an empty
message or an empty fileName is embedded as-is (AssemblyScript logical-or on
references only tests for null, and the empty string is truthy), so for
every fileName, line and column the empty-message diagnostic differs from
the null-message diagnostic, and symmetrically for fileName. -/
theorem logAndCrash_empty_kept :
    (∀ (fileName : Option String) (l c : Nat),
        logAndCrashMessage (some ("")) fileName l c ≠
          logAndCrashMessage none fileName l c) ∧
    (∀ (message : Option String) (l c : Nat),
        logAndCrashMessage message (some ("")) l c ≠
          logAndCrashMessage message none l c) ∧
    logAndCrashMessage (some ("")) (some ("")) 10 3 =
        "Aborted with message \x27 (in \x27\x27, line 10, column 3)" := by
  have h5 : ("unset" : String).length = 5 := rfl
  refine ⟨?_, ?_, by decide⟩
  · intro fileName l c hcontra
    have hlen := congrArg String.length hcontra
    simp only [logAndCrashMessage, orUnset, String.length_append, String.length_empty,
      h5] at hlen
    omega
  · intro message l c hcontra
    have hlen := congrArg String.length hcontra
    simp only [logAndCrashMessage, orUnset, String.length_append, String.length_empty,
      h5] at hlen
    omega

/-- C8: `wrapOk` produces the UTF-8 bytes of the minimal JSON document with
the single key ok whose value is the standard padded base64 of the input;
in particular on the bytes 0x68 0x69 it yields exactly the text with value
aGk=. -/
theorem wrapOk_json_base64 :
    (∀ bs : List Nat,
        wrapOk bs = strUtf8 ("\x7b\"ok\":\"" ++ Base64.encode bs ++ "\"\x7d")) ∧
    Base64.encode [104, 105] = "aGk=" ∧
    wrapOk [104, 105] = strUtf8 ("\x7b\"ok\":\"aGk=\"\x7d") ∧
    wrapOk [104, 105] = [123, 34, 111, 107, 34, 58, 34, 97, 71, 107, 61, 34, 125] :=
  ⟨fun _ => rfl, by decide, by decide, by decide⟩

/-- C7: on a well-formed heap, `allocate size` adds exactly two objects — the
size-byte buffer and the Region record describing it, each with reference
count 1 — and one `deallocate` of its result releases exactly those two
objects, restoring the live-allocation set. -/
theorem allocate_then_deallocate (st : Mem) (size : Nat) (hwf : st.wf) :
    (allocate st size).2.objs =
      st.objs ++ [(st.next, .buffer (List.replicate size 0), 1),
                  (st.next + 1, .region st.next size, 1)] ∧
    (deallocate (allocate st size).2 (allocate st size).1).objs = st.objs := by
  have halloc := allocate_eq st size hwf
  have h0 := boundNe hwf (Nat.le_refl st.next)
  have h1 := boundNe (boundSnoc hwf (HeapObj.buffer (List.replicate size 0)) 1)
    (Nat.le_refl (st.next + 1))
  have hsplit : st.objs ++ [(st.next, HeapObj.buffer (List.replicate size 0), 1),
      (st.next + 1, HeapObj.region st.next size, 1)] =
      (st.objs ++ [(st.next, HeapObj.buffer (List.replicate size 0), 1)]) ++
        [(st.next + 1, HeapObj.region st.next size, 1)] := by simp
  constructor
  · rw [halloc]
  · rw [halloc]
    have hl : (⟨st.objs ++ [(st.next, HeapObj.buffer (List.replicate size 0), 1),
        (st.next + 1, HeapObj.region st.next size, 1)], st.next + 2⟩ : Mem).lookupObj
          (st.next + 1) = some (.region st.next size, 1) := by
      simp only [Mem.lookupObj]
      rw [hsplit]
      exact lookupList_snoc h1
    rw [deallocate_eq_of_lookup hl]
    simp only [Mem.release]
    rw [hsplit, releaseList_snoc_one h1, releaseList_snoc_one h0]

/-- C7 witness: the round trip on a concrete heap with one live buffer. -/
theorem allocate_then_deallocate_witness :
    mem1.wf ∧
    ((allocate mem1 5).2.objs =
        mem1.objs ++ [(mem1.next, .buffer (List.replicate 5 0), 1),
                      (mem1.next + 1, .region mem1.next 5, 1)] ∧
     (deallocate (allocate mem1 5).2 (allocate mem1 5).1).objs = mem1.objs) :=
  ⟨by decide, allocate_then_deallocate mem1 5 (by decide)⟩

/-- C4: for every live byte array, taking ownership of the Region produced
by releasing ownership of it yields the same byte sequence, and the heap
returns to its original entries (the temporary Region is gone). -/
theorem takeOwnership_releaseOwnership_roundtrip (st : Mem) (arr : Uint8Array)
    (data : List Nat) (rc : Nat) (hwf : st.wf)
    (hbuf : st.lookupObj arr.dataPtr = some (.buffer data, rc)) (hrc : 1 ≤ rc) :
    ((takeOwnership (releaseOwnership st arr).2 (releaseOwnership st arr).1).2).readBytes
        (takeOwnership (releaseOwnership st arr).2 (releaseOwnership st arr).1).1
      = st.readBytes arr ∧
    (takeOwnership (releaseOwnership st arr).2 (releaseOwnership st arr).1).2.objs
      = st.objs := by
  have hbufl : lookupList arr.dataPtr st.objs = some (.buffer data, rc) := hbuf
  have e1 : retainList arr.dataPtr
      (st.objs ++ [(st.next, HeapObj.region arr.dataPtr arr.len, 0)]) =
      retainList arr.dataPtr st.objs ++
        [(st.next, HeapObj.region arr.dataPtr arr.len, 0)] :=
    retainList_append_left hbufl
  have bR : ∀ e ∈ retainList arr.dataPtr st.objs, e.1 < st.next := retainList_bound hwf
  have h0 := boundNe bR (Nat.le_refl st.next)
  have e2 : retainList st.next (retainList arr.dataPtr st.objs ++
      [(st.next, HeapObj.region arr.dataPtr arr.len, 0)]) =
      retainList arr.dataPtr st.objs ++
        [(st.next, HeapObj.region arr.dataPtr arr.len, 1)] := retainList_snoc h0
  have hrel : releaseOwnership st arr =
      (st.next,
       { objs := retainList arr.dataPtr st.objs ++
           [(st.next, HeapObj.region arr.dataPtr arr.len, 1)],
         next := st.next + 1 }) := by
    simp only [releaseOwnership, Mem.alloc, Mem.retain, getDataPtr]
    rw [e1, e2]
  have hlook : (Mem.mk (retainList arr.dataPtr st.objs ++
      [(st.next, HeapObj.region arr.dataPtr arr.len, 1)]) (st.next + 1)).lookupObj st.next =
      some (.region arr.dataPtr arr.len, 1) := by
    simp only [Mem.lookupObj]
    exact lookupList_snoc h0
  have hrr : readRegion (Mem.mk (retainList arr.dataPtr st.objs ++
      [(st.next, HeapObj.region arr.dataPtr arr.len, 1)]) (st.next + 1)) st.next =
      ⟨arr.dataPtr, arr.len⟩ := by
    unfold readRegion
    rw [hlook]
  have e3 : releaseList st.next (retainList arr.dataPtr st.objs ++
      [(st.next, HeapObj.region arr.dataPtr arr.len, 1)]) =
      retainList arr.dataPtr st.objs := releaseList_snoc_one h0
  have e4 : releaseList arr.dataPtr (retainList arr.dataPtr st.objs) = st.objs :=
    releaseList_retainList hbufl hrc
  rw [hrel]
  simp only [takeOwnership]
  rw [deallocate_eq_of_lookup hlook, hrr]
  simp only [Mem.release]
  rw [e3, e4]
  constructor
  · simp only [Mem.readBytes, Mem.lookupObj]
  · rfl

/-- C4 witness: the round trip on a concrete three-byte array. -/
theorem takeOwnership_releaseOwnership_roundtrip_witness :
    mem1.wf ∧ mem1.lookupObj arr1.dataPtr = some (.buffer [1, 2, 3], 1) ∧
    ((takeOwnership (releaseOwnership mem1 arr1).2 (releaseOwnership mem1 arr1).1).2).readBytes
        (takeOwnership (releaseOwnership mem1 arr1).2 (releaseOwnership mem1 arr1).1).1
      = mem1.readBytes arr1 ∧
    (takeOwnership (releaseOwnership mem1 arr1).2 (releaseOwnership mem1 arr1).1).2.objs
      = mem1.objs :=
  ⟨by decide, by decide,
    (takeOwnership_releaseOwnership_roundtrip mem1 arr1 [1, 2, 3] 1 (by decide)
      (by decide) (by decide)).1,
    (takeOwnership_releaseOwnership_roundtrip mem1 arr1 [1, 2, 3] 1 (by decide)
      (by decide) (by decide)).2⟩

/-- C5: for every live byte array, reading the Region produced by
`keepOwnership` yields the same view and the same byte sequence, and the
only heap change is the freshly created Region record with reference
count 0 — no retain or release happens on any pre-existing object. -/
theorem readRegion_keepOwnership_roundtrip (st : Mem) (arr : Uint8Array)
    (data : List Nat) (rc : Nat) (hwf : st.wf)
    (hbuf : st.lookupObj arr.dataPtr = some (.buffer data, rc)) :
    readRegion (keepOwnership st arr).2 (keepOwnership st arr).1 = arr ∧
    (keepOwnership st arr).2.readBytes
        (readRegion (keepOwnership st arr).2 (keepOwnership st arr).1)
      = st.readBytes arr ∧
    (keepOwnership st arr).2.objs =
      st.objs ++ [(st.next, .region arr.dataPtr arr.len, 0)] := by
  have hbufl : lookupList arr.dataPtr st.objs = some (.buffer data, rc) := hbuf
  have h0 := boundNe hwf (Nat.le_refl st.next)
  have hko : keepOwnership st arr =
      (st.next,
       { objs := st.objs ++ [(st.next, HeapObj.region arr.dataPtr arr.len, 0)],
         next := st.next + 1 }) := rfl
  have hlook : (Mem.mk (st.objs ++ [(st.next, HeapObj.region arr.dataPtr arr.len, 0)])
      (st.next + 1)).lookupObj st.next = some (.region arr.dataPtr arr.len, 0) := by
    simp only [Mem.lookupObj]
    exact lookupList_snoc h0
  have hrr : readRegion (Mem.mk (st.objs ++
      [(st.next, HeapObj.region arr.dataPtr arr.len, 0)]) (st.next + 1)) st.next =
      ⟨arr.dataPtr, arr.len⟩ := by
    unfold readRegion
    rw [hlook]
  rw [hko]
  refine ⟨by rw [hrr], ?_, rfl⟩
  rw [hrr]
  simp only [Mem.readBytes, Mem.lookupObj]
  rw [lookupList_append_left hbufl, hbufl]

/-- C5 witness: the round trip on a concrete three-byte array. -/
theorem readRegion_keepOwnership_roundtrip_witness :
    mem1.wf ∧ mem1.lookupObj arr1.dataPtr = some (.buffer [1, 2, 3], 1) ∧
    (readRegion (keepOwnership mem1 arr1).2 (keepOwnership mem1 arr1).1 = arr1 ∧
     (keepOwnership mem1 arr1).2.readBytes
        (readRegion (keepOwnership mem1 arr1).2 (keepOwnership mem1 arr1).1)
       = mem1.readBytes arr1 ∧
     (keepOwnership mem1 arr1).2.objs =
       mem1.objs ++ [(mem1.next, .region arr1.dataPtr arr1.len, 0)]) :=
  ⟨by decide, by decide,
    readRegion_keepOwnership_roundtrip mem1 arr1 [1, 2, 3] 1 (by decide) (by decide)⟩

/-- C2: whenever the host call inside `canonicalize` returns a negative
code, `canonicalize` fails with the address-canonicalization `Error` whose
message embeds exactly that numeric return code, and returns no bytes. -/
theorem canonicalize_negative_error (h : Host) (st : Mem) (human : String)
    (hneg : canonCode h st human < 0) :
    canonicalize h st human =
      (Except.error (canonErrMsg (canonCode h st human)), canonMemPost h st human) := by
  simp only [canonicalize]
  rw [if_pos hneg]

/-- C2 witness: a host stub returning -1 makes `canonicalize` fail with the
error carrying -1. -/
theorem canonicalize_negative_error_witness :
    canonCode hostNeg mem0 addr0 < 0 ∧
    canonicalize hostNeg mem0 addr0 =
      (Except.error (canonErrMsg (canonCode hostNeg mem0 addr0)),
       canonMemPost hostNeg mem0 addr0) :=
  ⟨by decide, canonicalize_negative_error hostNeg mem0 addr0 (by decide)⟩

/-- C3: when the host call fails with a negative code (and, as a host may
only write bytes into buffers, preserves the allocation layout), the
50-byte output Region allocated by `canonicalize` and its buffer are still
in the live-allocation set after the failure: nothing on the error path
deallocates them. -/
theorem canonicalize_negative_leaves_output_live (h : Host) (st : Mem) (human : String)
    (hwf : st.wf)
    (hlayout : (canonMemPost h st human).layout = (canonMemPre st human).layout)
    (hneg : canonCode h st human < 0) :
    (canonicalize h st human).1 = Except.error (canonErrMsg (canonCode h st human)) ∧
    (canonicalize h st human).2.lookupObj (canonOut st human) =
      some (.region (st.next + 1) 50, 1) ∧
    ∃ bs, (canonicalize h st human).2.lookupObj (st.next + 1) =
      some (.buffer bs, 1) ∧ bs.length = 50 := by
  have hcanon : canonicalize h st human =
      (Except.error (canonErrMsg (canonCode h st human)), canonMemPost h st human) := by
    simp only [canonicalize]
    rw [if_pos hneg]
  have hpreOut : lookupList (canonOut st human) (canonMemPre st human).objs =
      some (.region (st.next + 1) 50, 1) := canonMemPre_lookup_out st human hwf
  have hpreBuf : lookupList (st.next + 1) (canonMemPre st human).objs =
      some (.buffer (List.replicate 50 0), 1) := canonMemPre_lookup_buf st human hwf
  simp only [Mem.layout] at hlayout
  have htOut := layout_lookupList hlayout (canonOut st human)
  have htBuf := layout_lookupList hlayout (st.next + 1)
  rw [hpreOut] at htOut
  rw [hpreBuf] at htBuf
  have hOutPost : lookupList (canonOut st human) (canonMemPost h st human).objs =
      some (.region (st.next + 1) 50, 1) := by
    cases hopt : lookupList (canonOut st human) (canonMemPost h st human).objs with
    | none => rw [hopt] at htOut; simp at htOut
    | some q =>
      rw [hopt] at htOut
      obtain ⟨o, rcq⟩ := q
      simp only [Option.map_some', HeapObj.shape, Option.some.injEq, Prod.mk.injEq] at htOut
      obtain ⟨hsh, hrcq⟩ := htOut
      rw [shape_region hsh, hrcq]
  have hBufPost : ∃ bs, lookupList (st.next + 1) (canonMemPost h st human).objs =
      some (.buffer bs, 1) ∧ bs.length = 50 := by
    cases hopt : lookupList (st.next + 1) (canonMemPost h st human).objs with
    | none => rw [hopt] at htBuf; simp at htBuf
    | some q =>
      rw [hopt] at htBuf
      obtain ⟨o, rcq⟩ := q
      simp only [Option.map_some', HeapObj.shape, List.length_replicate,
        Option.some.injEq, Prod.mk.injEq] at htBuf
      obtain ⟨hsh, hrcq⟩ := htBuf
      obtain ⟨bs, hbs, hlen⟩ := shape_buffer hsh
      refine ⟨bs, ?_, by rw [hlen]; simp⟩
      rw [hbs, hrcq]
  refine ⟨by rw [hcanon], by rw [hcanon]; exact hOutPost, ?_⟩
  obtain ⟨bs, h1, h2⟩ := hBufPost
  exact ⟨bs, by rw [hcanon]; exact h1, h2⟩

/-- C3 witness: with the failing host stub, the output Region and its
50-byte buffer are still live after `canonicalize` fails. -/
theorem canonicalize_negative_leaves_output_live_witness :
    mem0.wf ∧ canonCode hostNeg mem0 addr0 < 0 ∧
    ((canonicalize hostNeg mem0 addr0).1 =
        Except.error (canonErrMsg (canonCode hostNeg mem0 addr0)) ∧
     (canonicalize hostNeg mem0 addr0).2.lookupObj (canonOut mem0 addr0) =
        some (.region (mem0.next + 1) 50, 1) ∧
     ∃ bs, (canonicalize hostNeg mem0 addr0).2.lookupObj (mem0.next + 1) =
        some (.buffer bs, 1) ∧ bs.length = 50) :=
  ⟨by decide, by decide,
    canonicalize_negative_leaves_output_live hostNeg mem0 addr0 (by decide) rfl (by decide)⟩

/-- C6: `canonicalize` pre-allocates exactly a 50-byte output Region via
`allocate`; for every host that returns a non-negative code after writing
N bytes into that Region (setting its length to N ≤ 50), `canonicalize`
returns exactly those N bytes and deallocates the output Region and its
buffer before returning. -/
theorem canonicalize_success_bytes (h : Host) (st : Mem) (human : String)
    (d N : Nat) (data : List Nat) (hwf : st.wf)
    (hcode : 0 ≤ canonCode h st human)
    (hnodup : ((canonMemPost h st human).objs.map fun e => e.1).Nodup)
    (hreg : (canonMemPost h st human).lookupObj (canonOut st human) =
      some (.region d N, 1))
    (hbuf : (canonMemPost h st human).lookupObj d = some (.buffer data, 1))
    (hN : N ≤ 50) (hlen : data.length = 50) :
    (canonMemPre st human).lookupObj (canonOut st human) =
      some (.region (st.next + 1) 50, 1) ∧
    canonicalize h st human =
      (Except.ok (data.take N),
       deallocate (canonMemPost h st human) (canonOut st human)) ∧
    (canonicalize h st human).2.lookupObj (canonOut st human) = none ∧
    (canonicalize h st human).2.lookupObj d = none ∧
    (data.take N).length = N := by
  have hnneg : ¬(canonCode h st human < 0) := by omega
  have hdne : d ≠ canonOut st human := by
    intro hh
    rw [hh, hreg] at hbuf
    simp at hbuf
  have hrr : readRegion (canonMemPost h st human) (canonOut st human) = ⟨d, N⟩ := by
    unfold readRegion
    rw [hreg]
  have hrb : (canonMemPost h st human).readBytes ⟨d, N⟩ = data.take N := by
    simp only [Mem.readBytes]
    rw [hbuf]
  have hcanon : canonicalize h st human =
      (Except.ok (data.take N),
       deallocate (canonMemPost h st human) (canonOut st human)) := by
    simp only [canonicalize]
    rw [if_neg hnneg, hrr, hrb]
  have hde : deallocate (canonMemPost h st human) (canonOut st human) =
      (((canonMemPost h st human).release (canonOut st human)).release d) :=
    deallocate_eq_of_lookup hreg
  refine ⟨canonMemPre_lookup_out st human hwf, hcanon, ?_, ?_, ?_⟩
  · rw [hcanon]
    show (deallocate (canonMemPost h st human) (canonOut st human)).lookupObj
      (canonOut st human) = none
    rw [hde]
    simp only [Mem.release, Mem.lookupObj]
    rw [lookupList_releaseList_other (Ne.symm hdne)]
    exact lookupList_releaseList_self hnodup hreg (Nat.le_refl 1)
  · rw [hcanon]
    show (deallocate (canonMemPost h st human) (canonOut st human)).lookupObj d = none
    rw [hde]
    simp only [Mem.release, Mem.lookupObj]
    have hothers : lookupList d (releaseList (canonOut st human)
        (canonMemPost h st human).objs) = some (.buffer data, 1) := by
      rw [lookupList_releaseList_other hdne]
      exact hbuf
    exact lookupList_releaseList_self (releaseList_nodup hnodup) hothers (Nat.le_refl 1)
  · simp only [List.length_take]
    omega

/-- C6 witness: a host stub writing two bytes and returning 0 makes
`canonicalize` return exactly those two bytes and free the output Region. -/
theorem canonicalize_success_bytes_witness :
    mem0.wf ∧ 0 ≤ canonCode hostOk mem0 addr0 ∧
    ((canonMemPost hostOk mem0 addr0).objs.map fun e => e.1).Nodup ∧
    (canonMemPost hostOk mem0 addr0).lookupObj (canonOut mem0 addr0) =
      some (.region 1 2, 1) ∧
    (canonMemPost hostOk mem0 addr0).lookupObj 1 =
      some (.buffer ([7, 8] ++ List.replicate 48 0), 1) ∧
    ((canonMemPre mem0 addr0).lookupObj (canonOut mem0 addr0) =
        some (.region (mem0.next + 1) 50, 1) ∧
     canonicalize hostOk mem0 addr0 =
       (Except.ok (([7, 8] ++ List.replicate 48 0).take 2),
        deallocate (canonMemPost hostOk mem0 addr0) (canonOut mem0 addr0)) ∧
     (canonicalize hostOk mem0 addr0).2.lookupObj (canonOut mem0 addr0) = none ∧
     (canonicalize hostOk mem0 addr0).2.lookupObj 1 = none ∧
     (([7, 8] ++ List.replicate 48 0).take 2).length = 2) :=
  ⟨by decide, by decide, by decide, by decide, by decide,
    canonicalize_success_bytes hostOk mem0 addr0 1 2 ([7, 8] ++ List.replicate 48 0)
      (by decide) (by decide) (by decide) (by decide) (by decide) (by decide) (by decide)⟩

end Cosmwasm
